import Mathlib

/-!
Verification of the `nextcloudcli` uploader (`src/nextcloudcli/uploader.py`).

The development shallowly embeds the code of `NextcloudUploader`:
URL strings are Lean `String`s (manipulated through their `List Char`
data), the relevant behaviour of `urllib.parse` (`urlparse`, `urljoin`
and their helpers, as used by the uploader) is modelled over character
lists, file contents are lists of bytes (`List Nat`), and the single
HTTP request performed by `upload_file` / `test_connection` is modelled
by an explicit outcome value (a status code, or a raised
`requests.exceptions.RequestException`).
-/

/-! ## Character-list utilities (models of Python `str` operations) -/

/-- Model of Python `str.find(pat)` based splitting: the pair
`(before, after)` around the first occurrence of `pat` in `s`, or
`none` when `pat` does not occur. -/
def splitFirst (pat : List Char) (s : List Char) : Option (List Char × List Char) :=
  match s with
  | [] => if pat.isEmpty then some ([], []) else none
  | c :: cs =>
    if pat.isPrefixOf (c :: cs) then some ([], (c :: cs).drop pat.length)
    else
      match splitFirst pat cs with
      | none => none
      | some (b, a) => some (c :: b, a)

/-- Model of Python `pat in s` (substring containment). -/
def hasSubstr (pat : List Char) (s : List Char) : Bool :=
  (splitFirst pat s).isSome

/-- Model of Python `s.rfind(pat)` for an occurring pattern: the index
of the last occurrence (`0` when there is none; callers guard with
`hasSubstr`). -/
def rfindD (pat : List Char) (s : List Char) : Nat :=
  ((((List.range (s.length + 1)).filter
      (fun i => pat.isPrefixOf (s.drop i))).getLast?).getD 0)

/-- Model of Python `s.split(c)` for a one-character separator. -/
def splitChar (c : Char) (s : List Char) : List (List Char) :=
  match s with
  | [] => [[]]
  | x :: xs =>
    match splitChar c xs with
    | [] => [[]]
    | h :: t => if x = c then [] :: h :: t else (x :: h) :: t

/-- Model of Python `c.join(l)` for a one-character separator. -/
def joinChar (c : Char) (l : List (List Char)) : List Char :=
  match l with
  | [] => []
  | [x] => x
  | x :: y :: t => x ++ c :: joinChar c (y :: t)

/-- Model of Python `s.rstrip(c)` for a one-character strip set. -/
def rstripChar (c : Char) (s : List Char) : List Char :=
  (s.reverse.dropWhile (fun d => d = c)).reverse

/-- Model of the Python statement `segments[1:-1] = filter(None, segments[1:-1])`
used in `urljoin`: the first and last elements are kept, empty middle
elements are removed. -/
def filterMiddle (l : List (List Char)) : List (List Char) :=
  match l with
  | [] => []
  | [x] => [x]
  | x :: xs => x :: ((xs.dropLast.filter (fun seg => !seg.isEmpty)) ++ xs.getLast?.toList)

/-- One step of the `resolved_path` loop in `urljoin`: `'..'` pops
(silently succeeding on an empty stack), `'.'` is skipped, any other
segment is appended. -/
def resolveStep (acc : List (List Char)) (seg : List Char) : List (List Char) :=
  if seg = ['.', '.'] then acc.dropLast
  else if seg = ['.'] then acc
  else acc ++ [seg]

/-- The `resolved_path` loop of `urljoin` over all segments. -/
def resolveSegs (segs : List (List Char)) : List (List Char) :=
  segs.foldl resolveStep []

/-! ## Model of `urllib.parse` (the parts used by the uploader) -/

/-- Characters allowed in a URL scheme (`scheme_chars` in `urllib.parse`). -/
def isSchemeChar (c : Char) : Bool :=
  c.isAlphanum || c = '+' || c = '-' || c = '.'

/-- A character that does not end the netloc part (`_splitnetloc` stops
at `'/'`, `'?'` and `'#'`). -/
def isNetlocChar (c : Char) : Bool :=
  !(c = '/' || c = '?' || c = '#')

/-- The scheme-detection step of `urlsplit`: split `scheme:rest` off when
the part before the first colon is a valid non-empty scheme, otherwise
keep the default scheme and the whole URL. -/
def splitScheme (url : List Char) (defScheme : List Char) : List Char × List Char :=
  match splitFirst [':'] url with
  | none => (defScheme, url)
  | some (before, after) =>
    if before ≠ [] ∧ (∃ c, before.head? = some c ∧ c.toNat < 128 ∧ c.isAlpha = true)
        ∧ (∀ c ∈ before, isSchemeChar c = true)
    then (before.map Char.toLower, after)
    else (defScheme, url)

/-- Result of `urlsplit`. -/
structure UrlSplitResult where
  scheme : List Char
  netloc : List Char
  path : List Char
  query : List Char
  fragment : List Char
deriving DecidableEq, Repr

/-- Model of `urllib.parse.urlsplit(url, defScheme)` (with
`allow_fragments=True`): scheme detection, then netloc after a leading
`//`, then the fragment after the first `#`, then the query after the
first `?`. -/
def urlsplitL (url : List Char) (defScheme : List Char) : UrlSplitResult :=
  let sr := splitScheme url defScheme
  let nr :=
    if ['/', '/'].isPrefixOf sr.2 then
      ((sr.2.drop 2).takeWhile isNetlocChar, (sr.2.drop 2).dropWhile isNetlocChar)
    else ([], sr.2)
  let fr :=
    match splitFirst ['#'] nr.2 with
    | some (b, a) => (b, a)
    | none => (nr.2, [])
  let qr :=
    match splitFirst ['?'] fr.1 with
    | some (b, a) => (b, a)
    | none => (fr.1, [])
  ⟨sr.1, nr.1, qr.1, qr.2, fr.2⟩

/-- Model of `urllib.parse._splitparams`: split the parameters after the
first `;` of the last path segment (callers only invoke it when `;`
occurs in the path). -/
def splitparams (url : List Char) : List Char × List Char :=
  if '/' ∈ url then
    match splitFirst [';'] (url.drop (rfindD ['/'] url)) with
    | none => (url, [])
    | some (b, a) => (url.take (rfindD ['/'] url) ++ b, a)
  else
    match splitFirst [';'] url with
    | none => (url, [])
    | some (b, a) => (b, a)

/-- Result of `urlparse` (a `urlsplit` result with `params` split off the
path). -/
structure UrlParseResult where
  scheme : List Char
  netloc : List Char
  path : List Char
  params : List Char
  query : List Char
  fragment : List Char
deriving DecidableEq, Repr

/-- Model of `urllib.parse.urlparse(url, defScheme)`. -/
def urlparseL (url : List Char) (defScheme : List Char) : UrlParseResult :=
  let r := urlsplitL url defScheme
  let pp := if ';' ∈ r.path then splitparams r.path else (r.path, [])
  ⟨r.scheme, r.netloc, pp.1, pp.2, r.query, r.fragment⟩

/-- Model of `urllib.parse.urlunsplit`. -/
def urlunsplitL (scheme netloc path query fragment : List Char) : List Char :=
  let url :=
    if netloc ≠ [] ∨ (path ≠ [] ∧ ['/', '/'].isPrefixOf path) then
      ['/', '/'] ++ netloc ++ (if path ≠ [] ∧ path.head? ≠ some '/' then '/' :: path else path)
    else path
  let url := if scheme ≠ [] then scheme ++ ':' :: url else url
  let url := if query ≠ [] then url ++ '?' :: query else url
  if fragment ≠ [] then url ++ '#' :: fragment else url

/-- Model of `urllib.parse.urlunparse`. -/
def urlunparseL (scheme netloc path params query fragment : List Char) : List Char :=
  let path := if params ≠ [] then path ++ ';' :: params else path
  urlunsplitL scheme netloc path query fragment

/-- `uses_relative` of `urllib.parse` (schemes that allow relative
references). -/
def usesRelative : List (List Char) :=
  [[], "ftp".data, "http".data, "gopher".data, "nntp".data, "imap".data,
   "wais".data, "file".data, "https".data, "shttp".data, "mms".data,
   "prospero".data, "rtsp".data, "rtspu".data, "sftp".data, "svn".data,
   "svn+ssh".data, "ws".data, "wss".data]

/-- `uses_netloc` of `urllib.parse` (schemes that use a network
location). -/
def usesNetloc : List (List Char) :=
  [[], "ftp".data, "http".data, "gopher".data, "nntp".data, "telnet".data,
   "imap".data, "wais".data, "file".data, "mms".data, "https".data,
   "shttp".data, "snews".data, "prospero".data, "rtsp".data, "rtspu".data,
   "rsync".data, "svn".data, "svn+ssh".data, "sftp".data, "nfs".data,
   "git".data, "git+ssh".data, "ws".data, "wss".data]

/-- Model of `urllib.parse.urljoin(base, url)`. -/
def urljoinL (base url : List Char) : List Char :=
  if base = [] then url
  else if url = [] then base
  else
    let b := urlparseL base []
    let r := urlparseL url b.scheme
    if r.scheme ≠ b.scheme ∨ r.scheme ∉ usesRelative then url
    else if r.scheme ∈ usesNetloc ∧ r.netloc ≠ [] then
      urlunparseL r.scheme r.netloc r.path r.params r.query r.fragment
    else
      let netloc := if r.scheme ∈ usesNetloc then b.netloc else r.netloc
      if r.path = [] ∧ r.params = [] then
        urlunparseL r.scheme netloc b.path b.params
          (if r.query = [] then b.query else r.query) r.fragment
      else
        let baseParts := splitChar '/' b.path
        let baseParts :=
          if baseParts.getLast? ≠ some [] then baseParts.dropLast else baseParts
        let segments :=
          if r.path.head? = some '/' then splitChar '/' r.path
          else filterMiddle (baseParts ++ splitChar '/' r.path)
        let resolved := resolveSegs segments
        let resolved :=
          if segments.getLast? = some ['.'] ∨ segments.getLast? = some ['.', '.']
          then resolved ++ [[]] else resolved
        let joined := joinChar '/' resolved
        urlunparseL r.scheme netloc (if joined = [] then ['/'] else joined)
          r.params r.query r.fragment

/-- String-level `urljoin`, as called by the uploader. -/
def urljoinS (base url : String) : String :=
  String.mk (urljoinL base.data url.data)

/-! ## The uploader (`NextcloudUploader`) -/

/-- The three attributes of a parsed URL that the uploader reads
(`parsed.scheme`, `parsed.netloc`, `parsed.path`). -/
structure ParsedURL where
  scheme : String
  netloc : String
  path : String
deriving DecidableEq, Repr

/-- Model of `urllib.parse.urlparse(share_url)` restricted to the three
attributes the uploader uses. -/
def urlparse (url : String) : ParsedURL :=
  let r := urlparseL url.data []
  ⟨String.mk r.scheme, String.mk r.netloc, String.mk r.path⟩

/-- `parsed.path.rstrip("/").split("/")`, the path-part list of
`_extract_share_token`. -/
def pathParts (path : String) : List String :=
  (splitChar '/' (rstripChar '/' path.data)).map String.mk

/-- Model of Python `list.index` (first index of `a`; `none` models the
raised `ValueError`). -/
def indexFirst (a : String) (l : List String) : Option Nat :=
  match l with
  | [] => none
  | x :: xs => if x = a then some 0 else (indexFirst a xs).map (· + 1)

/-- The body of `_extract_share_token` applied to an already-parsed path:
find the first `"s"` part, take the part after it; `none` models the
raised `ValueError` (both for a missing `"s"` and for the `IndexError`
when `"s"` is the last part). -/
def extract_token_from_path (path : String) : Option String :=
  let parts := pathParts path
  match indexFirst "s" parts with
  | none => none
  | some i => parts.get? (i + 1)

/-- Model of `NextcloudUploader._extract_share_token`. -/
def extract_share_token (share_url : String) : Option String :=
  extract_token_from_path (urlparse share_url).path

/-- The path manipulation inside `_get_base_url`: strip trailing slashes
and cut everything from the last occurrence of `"/s/"` on (when one
occurs). -/
def basePathCut (path : String) : String :=
  if hasSubstr "/s/".data (rstripChar '/' path.data) then
    String.mk ((rstripChar '/' path.data).take (rfindD "/s/".data (rstripChar '/' path.data)))
  else String.mk (rstripChar '/' path.data)

/-- Model of `NextcloudUploader._get_base_url`. -/
def get_base_url (share_url : String) : String :=
  let parsed := urlparse share_url
  parsed.scheme ++ "://" ++ parsed.netloc ++ basePathCut parsed.path

/-- Model of `NextcloudUploader._construct_webdav_url`. -/
def construct_webdav_url (base_url : String) : String :=
  let b := if base_url.data.getLast? = some '/' then base_url else base_url ++ "/"
  urljoinS b "public.php/webdav/"

/-- `remote_name or file_path.name`: Python `or` falls back on both
`None` and the empty string. -/
def target_name (remote_name : Option String) (file_name : String) : String :=
  match remote_name with
  | some r => if r = "" then file_name else r
  | none => file_name

/-- Outcome of the single HTTP request of an upload / connection test:
either a response with a status code, or a raised
`requests.exceptions.RequestException` (transport failure). -/
inductive HttpResult where
  | status (code : Nat)
  | connError
deriving DecidableEq, Repr

/-- How an `upload_file` call terminates. -/
inductive UploadOutcome where
  | raisedFileNotFound
  | raisedOSError
  | raisedTransport
  | returned (success : Bool)
deriving DecidableEq, Repr

/-- The aspects of the local path that `upload_file` interacts with:
`present` models `file_path.exists()`, `readable` models whether
`open(file_path, "rb")` succeeds (it fails for directories and
unreadable files, which still exist), `name` models `file_path.name`,
`content` the file's bytes. -/
structure LocalFile where
  present : Bool
  readable : Bool
  name : String
  content : List Nat
deriving DecidableEq, Repr

/-- A PUT request as issued by `upload_file`. -/
structure PutRequest where
  url : String
  body : List Nat
  user : String
  password : String
deriving DecidableEq, Repr

/-- Model of `NextcloudUploader.upload_file` (the whole-file-read path,
`show_progress=False`), returning the outcome together with the list of
HTTP requests issued.  The existence check precedes everything; the
target URL is computed with `urljoin`; the file is opened and read
before the request; the request's status decides the boolean result,
and a transport failure is re-raised. -/
def upload_file (webdav_url : String) (share_token password : String)
    (file : LocalFile) (remote_name : Option String) (t : HttpResult) :
    UploadOutcome × List PutRequest :=
  if file.present = false then (.raisedFileNotFound, [])
  else
    let tname := target_name remote_name file.name
    let upload_url := urljoinS webdav_url tname
    if file.readable = false then (.raisedOSError, [])
    else
      match t with
      | .connError => (.raisedTransport, [⟨upload_url, file.content, share_token, password⟩])
      | .status code =>
        (.returned (decide (code ∈ [200, 201, 204])),
         [⟨upload_url, file.content, share_token, password⟩])

/-- Model of `NextcloudUploader.test_connection`: the PROPFIND status
decides the result, and a transport failure is caught and converted to
`false`. -/
def test_connection (t : HttpResult) : Bool :=
  match t with
  | .connError => false
  | .status code => decide (code ∈ [200, 207])

/-- The chunk loop of `_file_reader_with_progress` with explicit fuel
(`f.read(chunk_size)` models as `take chunk_size`; the loop breaks on an
empty chunk, which also happens immediately when `chunk_size = 0`). -/
def readChunksAux (fuel chunk_size : Nat) (content : List Nat) : List (List Nat) :=
  match fuel with
  | 0 => []
  | fuel' + 1 =>
    let chunk := content.take chunk_size
    if chunk = [] then []
    else chunk :: readChunksAux fuel' chunk_size (content.drop chunk_size)

/-- Model of `NextcloudUploader._file_reader_with_progress`: the list of
chunks the generator yields (the file has `content.length` bytes, so
`content.length` loop iterations always suffice). -/
def file_reader_with_progress (content : List Nat) (chunk_size : Nat := 8192) :
    List (List Nat) :=
  readChunksAux content.length chunk_size content

/-- Cumulative sums starting from `acc`. -/
def cumSums (acc : Nat) (l : List Nat) : List Nat :=
  match l with
  | [] => []
  | x :: xs => (acc + x) :: cumSums (acc + x) xs

/-- The cumulative bytes-transferred counts reported by
`pbar.update(len(chunk))` after each chunk. -/
def progress_reports (content : List Nat) (chunk_size : Nat := 8192) : List Nat :=
  cumSums 0 ((file_reader_with_progress content chunk_size).map List.length)

/-! ## Helper lemmas for the chunked reader -/

lemma cumSums_ne_nil_iff (acc : Nat) (l : List Nat) : cumSums acc l ≠ [] ↔ l ≠ [] := by
  cases l <;> simp [cumSums]

lemma cumSums_head_ge (l : List Nat) (acc b : Nat)
    (h : (cumSums acc l).get? 0 = some b) : acc ≤ b := by
  cases l with
  | nil => simp [cumSums] at h
  | cons x xs =>
    simp [cumSums] at h
    omega

lemma cumSums_monotone (l : List Nat) :
    ∀ (acc i a b : Nat), (cumSums acc l).get? i = some a →
      (cumSums acc l).get? (i + 1) = some b → a ≤ b := by
  induction l with
  | nil => intro acc i a b ha _; simp [cumSums] at ha
  | cons x xs ih =>
    intro acc i a b ha hb
    cases i with
    | zero =>
      simp only [cumSums, List.get?] at ha hb
      cases ha
      exact cumSums_head_ge xs (acc + x) b hb
    | succ j =>
      simp only [cumSums, List.get?] at ha hb
      exact ih (acc + x) j a b ha hb

lemma cumSums_getLast (l : List Nat) :
    ∀ acc : Nat, (cumSums acc l).getLast? = if l = [] then none else some (acc + l.sum) := by
  induction l with
  | nil => intro acc; simp [cumSums]
  | cons x xs ih =>
    intro acc
    by_cases hxs : xs = []
    · subst hxs; simp [cumSums]
    · obtain ⟨y, ys, rfl⟩ := List.exists_cons_of_ne_nil hxs
      have h1 : cumSums acc (x :: y :: ys)
          = (acc + x) :: (acc + x + y) :: cumSums (acc + x + y) ys := rfl
      rw [h1, List.getLast?_cons_cons]
      have h2 : (acc + x + y) :: cumSums (acc + x + y) ys = cumSums (acc + x) (y :: ys) := rfl
      rw [h2, ih (acc + x)]
      simp [Nat.add_assoc]

lemma readChunksAux_flatten (n : Nat) (hn : 0 < n) :
    ∀ (fuel : Nat) (content : List Nat), content.length ≤ fuel →
      (readChunksAux fuel n content).flatten = content := by
  intro fuel
  induction fuel with
  | zero =>
    intro content hc
    have : content = [] := List.length_eq_zero.mp (Nat.le_zero.mp hc)
    simp [this, readChunksAux]
  | succ fuel' ih =>
    intro content hc
    cases content with
    | nil => simp [readChunksAux]
    | cons c cs =>
      obtain ⟨m, rfl⟩ := Nat.exists_eq_succ_of_ne_zero (Nat.pos_iff_ne_zero.mp hn)
      have hchunk : (c :: cs).take (m + 1) = c :: cs.take m := rfl
      simp only [readChunksAux, hchunk]
      rw [if_neg (by simp)]
      have hlen : ((c :: cs).drop (m + 1)).length ≤ fuel' := by
        simp only [List.length_drop, List.length_cons]
        simp only [List.length_cons] at hc
        omega
      simp only [List.flatten_cons, ih ((c :: cs).drop (m + 1)) hlen]
      exact List.take_append_drop (m + 1) (c :: cs)

/-! ## Claim theorems: upload result semantics, connection test, chunked reader -/

/-- Claim C1: for every upload call that reaches the HTTP layer (the
local file exists and can be opened), `upload_file` returns `true`
exactly when the response status is 200, 201 or 204; any other status
yields `false`; a transport failure is re-raised (as the distinct
outcome `raisedTransport`), not returned as `false`; and exactly one
HTTP request is issued. -/
theorem upload_status_semantics (w tk pw : String) (f : LocalFile)
    (rn : Option String) (t : HttpResult)
    (hp : f.present = true) (hr : f.readable = true) :
    ((upload_file w tk pw f rn t).1 = .returned true ↔
      ∃ c, t = .status c ∧ (c = 200 ∨ c = 201 ∨ c = 204)) ∧
    (∀ c, t = .status c → ¬(c = 200 ∨ c = 201 ∨ c = 204) →
      (upload_file w tk pw f rn t).1 = .returned false) ∧
    (t = .connError → (upload_file w tk pw f rn t).1 = .raisedTransport) ∧
    (upload_file w tk pw f rn t).2.length = 1 := by
  cases t with
  | connError =>
    refine ⟨?_, ?_, ?_, ?_⟩ <;> simp [upload_file, hp, hr]
  | status c =>
    have hred : (upload_file w tk pw f rn (.status c)).1
        = .returned (decide (c ∈ [200, 201, 204])) := by
      simp [upload_file, hp, hr]
    have hlen : (upload_file w tk pw f rn (.status c)).2.length = 1 := by
      simp [upload_file, hp, hr]
    refine ⟨?_, ?_, ?_, hlen⟩
    · rw [hred]
      constructor
      · intro h
        have hb := UploadOutcome.returned.inj h
        exact ⟨c, rfl, by simpa using of_decide_eq_true hb⟩
      · rintro ⟨c2, hc2, hmem⟩
        injection hc2 with h2
        subst h2
        rw [decide_eq_true (show c ∈ [200, 201, 204] by simpa using hmem)]
    · intro c2 hc2 hmem
      injection hc2 with h2
      subst h2
      rw [hred, decide_eq_false (show c ∉ [200, 201, 204] by simpa using hmem)]
    · intro h; simp at h

/-- Witness for `upload_status_semantics`: a stub returning 201 yields
`true`, 401 yields `false`, and a connection error is re-raised. -/
theorem upload_status_semantics_witness :
    (upload_file "https://h/public.php/webdav/" "tok" "" ⟨true, true, "f.txt", [7, 8]⟩
        none (.status 201)).1 = .returned true ∧
    (upload_file "https://h/public.php/webdav/" "tok" "" ⟨true, true, "f.txt", [7, 8]⟩
        none (.status 401)).1 = .returned false ∧
    (upload_file "https://h/public.php/webdav/" "tok" "" ⟨true, true, "f.txt", [7, 8]⟩
        none .connError).1 = .raisedTransport := by
  refine ⟨?_, ?_, ?_⟩
  · exact (upload_status_semantics "https://h/public.php/webdav/" "tok" ""
      ⟨true, true, "f.txt", [7, 8]⟩ none (.status 201) rfl rfl).1.mpr
      ⟨201, rfl, by decide⟩
  · exact (upload_status_semantics "https://h/public.php/webdav/" "tok" ""
      ⟨true, true, "f.txt", [7, 8]⟩ none (.status 401) rfl rfl).2.1
      401 rfl (by decide)
  · exact (upload_status_semantics "https://h/public.php/webdav/" "tok" ""
      ⟨true, true, "f.txt", [7, 8]⟩ none .connError rfl rfl).2.2.1 rfl

/-- Claim C2: `test_connection` returns `true` exactly when the PROPFIND
response status is 200 or 207; every other status and a caught
transport failure give `false`, and the call never raises (its result
type is a plain boolean). -/
theorem test_connection_semantics (t : HttpResult) :
    test_connection t = true ↔ (t = .status 200 ∨ t = .status 207) := by
  cases t with
  | connError => simp [test_connection]
  | status c =>
    simp only [test_connection, decide_eq_true_eq, List.mem_cons, List.mem_singleton,
      List.not_mem_nil, or_false]
    constructor
    · rintro (rfl | rfl)
      · exact Or.inl rfl
      · exact Or.inr rfl
    · rintro (h | h) <;> cases h <;> simp

/-- Claim C3 counterexample: a local path that exists but cannot be
opened as a regular readable file (for instance a directory) passes the
`exists()` check, and the subsequent `open` failure surfaces as an
`OSError`-style outcome, not as the claimed `LocalFileNotFound`. -/
theorem upload_unreadable_counterexample :
    (upload_file "https://cloud.example.com/public.php/webdav/" "TOKEN" ""
        ⟨true, false, "somedir", []⟩ none (.status 201)).1 = .raisedOSError ∧
    UploadOutcome.raisedOSError ≠ UploadOutcome.raisedFileNotFound := by
  exact ⟨rfl, by decide⟩

/-- Claim C3 (amended): for every local path that does not exist,
`upload_file` fails with the file-not-found error before any network
call: zero HTTP requests are issued. -/
theorem upload_missing_file_no_request (w tk pw : String) (f : LocalFile)
    (rn : Option String) (t : HttpResult) (h : f.present = false) :
    (upload_file w tk pw f rn t).1 = .raisedFileNotFound ∧
    (upload_file w tk pw f rn t).2 = [] := by
  simp [upload_file, h]

/-- Witness for `upload_missing_file_no_request` at a concrete missing
file. -/
theorem upload_missing_file_no_request_witness :
    (upload_file "https://h/public.php/webdav/" "tok" ""
        ⟨false, true, "gone.txt", []⟩ none (.status 201)).1 = .raisedFileNotFound ∧
    (upload_file "https://h/public.php/webdav/" "tok" ""
        ⟨false, true, "gone.txt", []⟩ none (.status 201)).2 = [] :=
  upload_missing_file_no_request "https://h/public.php/webdav/" "tok" ""
    ⟨false, true, "gone.txt", []⟩ none (.status 201) rfl

/-- Claim C8: for every file content and positive chunk size, the
streaming path's request body (the concatenation of the yielded chunks)
is byte-identical to the whole-file-read body; the cumulative
bytes-transferred counts reported after each chunk are monotonically
increasing; and the final reported value equals the file size. -/
theorem streaming_matches_whole_read (content : List Nat) (n : Nat) (hn : 0 < n) :
    (file_reader_with_progress content n).flatten = content ∧
    (∀ i a b, (progress_reports content n).get? i = some a →
      (progress_reports content n).get? (i + 1) = some b → a ≤ b) ∧
    ((progress_reports content n).getLast?).getD 0 = content.length := by
  have hjoin : (file_reader_with_progress content n).flatten = content :=
    readChunksAux_flatten n hn content.length content le_rfl
  refine ⟨hjoin, ?_, ?_⟩
  · intro i a b ha hb
    exact cumSums_monotone _ 0 i a b ha hb
  · rw [progress_reports, cumSums_getLast]
    by_cases hc : (file_reader_with_progress content n).map List.length = []
    · rw [if_pos hc]
      have : file_reader_with_progress content n = [] := by
        simpa using hc
      rw [← hjoin, this]
      rfl
    · rw [if_neg hc]
      simp only [Option.getD_some, Nat.zero_add]
      rw [← List.length_flatten, hjoin]

/-- Witness for `streaming_matches_whole_read` at the default chunk size
on a small file. -/
theorem streaming_matches_whole_read_witness :
    (file_reader_with_progress [1, 2, 3] 8192).flatten = [1, 2, 3] ∧
    ((progress_reports [1, 2, 3] 8192).getLast?).getD 0 = 3 := by
  refine ⟨(streaming_matches_whole_read [1, 2, 3] 8192 (by decide)).1, ?_⟩
  exact (streaming_matches_whole_read [1, 2, 3] 8192 (by decide)).2.2

/-- Claim C10: passing the empty string as the remote name behaves
exactly like passing no remote name at all — the whole upload call
(outcome and issued request) is identical, falling back to the local
file's base name. -/
theorem empty_remote_name_is_default (w tk pw : String) (f : LocalFile)
    (t : HttpResult) :
    upload_file w tk pw f (some "") t = upload_file w tk pw f none t := by
  simp [upload_file, target_name]

/-! ## Helper lemmas: first-index search (`list.index`) -/

lemma indexFirst_none_iff (a : String) (l : List String) :
    indexFirst a l = none ↔ a ∉ l := by
  induction l with
  | nil => simp [indexFirst]
  | cons x xs ih =>
    by_cases hx : x = a
    · subst hx; simp [indexFirst]
    · rw [indexFirst, if_neg hx]
      constructor
      · intro h
        have hnone : indexFirst a xs = none := by
          cases hxs : indexFirst a xs with
          | none => rfl
          | some i => rw [hxs] at h; cases h
        intro hmem
        rcases List.mem_cons.mp hmem with rfl | hmem2
        · exact hx rfl
        · exact ih.mp hnone hmem2
      · intro hmem
        rw [ih.mpr (fun hc => hmem (List.mem_cons_of_mem x hc))]
        rfl

lemma indexFirst_some_spec (a : String) :
    ∀ (l : List String) (i : Nat), indexFirst a l = some i →
      l.get? i = some a ∧ ∀ j, j < i → l.get? j ≠ some a := by
  intro l
  induction l with
  | nil => intro i h; cases h
  | cons x xs ih =>
    intro i h
    by_cases hx : x = a
    · subst hx
      simp only [indexFirst, if_pos rfl] at h
      cases h
      exact ⟨rfl, fun j hj => absurd hj (Nat.not_lt_zero j)⟩
    · simp only [indexFirst, if_neg hx] at h
      cases hxs : indexFirst a xs with
      | none => rw [hxs] at h; cases h
      | some i' =>
        rw [hxs] at h
        have h' : i = i' + 1 := by
          have h2 : some (i' + 1) = some i := h
          exact (Option.some.inj h2).symm
        subst h'
        obtain ⟨hget, hmin⟩ := ih i' hxs
        refine ⟨hget, ?_⟩
        intro j hj
        cases j with
        | zero =>
          rw [List.get?_cons_zero]
          intro hc
          exact hx (Option.some.inj hc)
        | succ j' =>
          rw [List.get?_cons_succ]
          exact hmin j' (Nat.lt_of_succ_lt_succ hj)

lemma indexFirst_eq_some_of (a : String) :
    ∀ (l : List String) (i : Nat), l.get? i = some a →
      (∀ j, j < i → l.get? j ≠ some a) → indexFirst a l = some i := by
  intro l
  induction l with
  | nil => intro i h _; cases h
  | cons x xs ih =>
    intro i h hmin
    cases i with
    | zero =>
      rw [List.get?_cons_zero] at h
      rw [indexFirst, if_pos (Option.some.inj h)]
    | succ i' =>
      have hx : x ≠ a := by
        intro hc
        exact hmin 0 (Nat.succ_pos i') (by simp [hc])
      rw [List.get?_cons_succ] at h
      rw [indexFirst, if_neg hx,
        ih i' h (fun j hj => hmin (j + 1) (Nat.succ_lt_succ hj))]
      rfl

/-- Shared characterization: a successful token extraction returns the
part directly after the first `"s"` part. -/
lemma extract_some_first (path : String) (t : String)
    (h : extract_token_from_path path = some t) :
    ∃ i, (pathParts path).get? i = some "s" ∧
      (∀ j, j < i → (pathParts path).get? j ≠ some "s") ∧
      (pathParts path).get? (i + 1) = some t := by
  have hdef : extract_token_from_path path =
      match indexFirst "s" (pathParts path) with
      | none => none
      | some i => (pathParts path).get? (i + 1) := rfl
  rw [hdef] at h
  cases hidx : indexFirst "s" (pathParts path) with
  | none => rw [hidx] at h; cases h
  | some i =>
    rw [hidx] at h
    obtain ⟨hget, hmin⟩ := indexFirst_some_spec "s" (pathParts path) i hidx
    exact ⟨i, hget, hmin, h⟩

/-- Claim C4: token extraction fails exactly when the path has no `s`
segment, or the (first) `s` segment is the final one; otherwise it
yields the segment immediately after that `s`, and a trailing slash is
ignored (`resolve("https://cloud.example.com/s/TOKEN/")` yields
`"TOKEN"`). -/
theorem extract_token_characterization :
    (∀ path : String,
      (extract_token_from_path path = none ↔
        "s" ∉ pathParts path ∨
        ∃ i, (pathParts path).get? i = some "s" ∧
          (∀ j, j < i → (pathParts path).get? j ≠ some "s") ∧
          i + 1 = (pathParts path).length) ∧
      (∀ t, extract_token_from_path path = some t →
        ∃ i, (pathParts path).get? i = some "s" ∧
          (∀ j, j < i → (pathParts path).get? j ≠ some "s") ∧
          (pathParts path).get? (i + 1) = some t)) ∧
    extract_share_token "https://cloud.example.com/s/TOKEN/" = some "TOKEN" := by
  refine ⟨fun path => ⟨?_, fun t h => extract_some_first path t h⟩, by decide⟩
  have hdef : extract_token_from_path path =
      match indexFirst "s" (pathParts path) with
      | none => none
      | some i => (pathParts path).get? (i + 1) := rfl
  rw [hdef]
  constructor
  · intro h
    cases hidx : indexFirst "s" (pathParts path) with
    | none => exact Or.inl ((indexFirst_none_iff "s" (pathParts path)).mp hidx)
    | some i =>
      rw [hidx] at h
      obtain ⟨hget, hmin⟩ := indexFirst_some_spec "s" (pathParts path) i hidx
      refine Or.inr ⟨i, hget, hmin, ?_⟩
      have hlen : (pathParts path).length ≤ i + 1 := List.get?_eq_none.mp h
      have hi : i < (pathParts path).length := by
        by_contra hc
        rw [List.get?_eq_none.mpr (Nat.le_of_not_lt hc)] at hget
        cases hget
      omega
  · intro h
    rcases h with hmem | ⟨i, hget, hmin, hlen⟩
    · rw [(indexFirst_none_iff "s" (pathParts path)).mpr hmem]
    · rw [indexFirst_eq_some_of "s" (pathParts path) i hget hmin]
      exact List.get?_eq_none.mpr (Nat.le_of_eq hlen.symm)

/-- Witness for `extract_token_characterization`: at the concrete path
`"/a/s"` extraction fails with the first `s` segment final, and at
`"/s/TOKEN/"` the successful extraction is located after the first
`s`. -/
theorem extract_token_characterization_witness :
    (extract_token_from_path "/a/s" = none ↔
      "s" ∉ pathParts "/a/s" ∨
      ∃ i, (pathParts "/a/s").get? i = some "s" ∧
        (∀ j, j < i → (pathParts "/a/s").get? j ≠ some "s") ∧
        i + 1 = (pathParts "/a/s").length) ∧
    (∃ i, (pathParts "/s/TOKEN/").get? i = some "s" ∧
      (∀ j, j < i → (pathParts "/s/TOKEN/").get? j ≠ some "s") ∧
      (pathParts "/s/TOKEN/").get? (i + 1) = some "TOKEN") :=
  ⟨(extract_token_characterization.1 "/a/s").1,
   (extract_token_characterization.1 "/s/TOKEN/").2 "TOKEN" (by decide)⟩

/-! ## Helper lemmas: path splitting and empty segments -/

lemma splitChar_ne_nil (c : Char) (s : List Char) : splitChar c s ≠ [] := by
  cases s with
  | nil => simp [splitChar]
  | cons x xs =>
    simp only [splitChar]
    cases splitChar c xs with
    | nil => simp
    | cons h t => by_cases hx : x = c <;> simp [hx]

lemma splitChar_cons_ex (c : Char) (s : List Char) :
    ∃ h t, splitChar c s = h :: t := by
  cases hq : splitChar c s with
  | nil => exact absurd hq (splitChar_ne_nil c s)
  | cons a b => exact ⟨a, b, rfl⟩

lemma head?_dropWhile_not (p : Char → Bool) :
    ∀ (l : List Char) (a : Char), (l.dropWhile p).head? = some a → p a = false := by
  intro l
  induction l with
  | nil => intro a h; cases h
  | cons x xs ih =>
    intro a h
    by_cases hx : p x = true
    · rw [List.dropWhile_cons, if_pos hx] at h
      exact ih a h
    · rw [List.dropWhile_cons, if_neg hx] at h
      have : x = a := Option.some.inj h
      subst this
      exact Bool.eq_false_iff.mpr hx

lemma rstripChar_getLast (c : Char) (s : List Char) :
    (rstripChar c s).getLast? ≠ some c := by
  rw [rstripChar]
  intro h
  rw [List.getLast?_reverse] at h
  have := head?_dropWhile_not (fun d => d = c) s.reverse c h
  simp at this

lemma hasSubstr_cons (pat : List Char) (x : Char) (xs : List Char) :
    hasSubstr pat (x :: xs) = (pat.isPrefixOf (x :: xs) || hasSubstr pat xs) := by
  by_cases h : pat.isPrefixOf (x :: xs) = true
  · simp [hasSubstr, splitFirst, h]
  · have h' : pat.isPrefixOf (x :: xs) = false := Bool.eq_false_iff.mpr h
    simp only [hasSubstr, splitFirst, if_neg h, h', Bool.false_or]
    cases hs : splitFirst pat xs with
    | none => simp
    | some p => cases p; simp

lemma splitChar_no_empty_aux (c : Char) :
    ∀ s : List Char, hasSubstr [c, c] s = false → s.getLast? ≠ some c →
      (∀ u ∈ (splitChar c s).drop 1, u ≠ []) ∧
      (s.head? ≠ some c → s ≠ [] → ∀ u ∈ splitChar c s, u ≠ []) := by
  intro s
  induction s with
  | nil =>
    intro _ _
    refine ⟨?_, ?_⟩
    · intro u hu; simp [splitChar] at hu
    · intro _ hne; exact absurd rfl hne
  | cons x xs ih =>
    intro hcc hlast
    have hpre : [c, c].isPrefixOf (x :: xs) = false := by
      rw [hasSubstr_cons] at hcc
      exact (Bool.or_eq_false_iff.mp hcc).1
    have hccx : hasSubstr [c, c] xs = false := by
      rw [hasSubstr_cons] at hcc
      exact (Bool.or_eq_false_iff.mp hcc).2
    cases xs with
    | nil =>
      have hxc : x ≠ c := by
        intro h; subst h
        exact hlast rfl
      have hsp : splitChar c [x] = [[x]] := by
        simp [splitChar, hxc]
      refine ⟨?_, ?_⟩
      · intro u hu
        rw [hsp] at hu
        simp at hu
      · intro _ _ u hu
        rw [hsp] at hu
        simp at hu
        subst hu
        simp
    | cons y ys =>
      have hlast' : (y :: ys).getLast? ≠ some c := by
        rw [List.getLast?_cons_cons] at hlast; exact hlast
      obtain ⟨ih1, ih2⟩ := ih hccx hlast'
      obtain ⟨h0, t0, hht⟩ := splitChar_cons_ex c (y :: ys)
      by_cases hx : x = c
      · have hyc : y ≠ c := by
          intro hy
          have hp2 : [c, c].isPrefixOf (x :: y :: ys) = true := by
            rw [hx, hy]; simp [List.isPrefixOf]
          rw [hp2] at hpre; cases hpre
        have hsp : splitChar c (x :: y :: ys) = [] :: h0 :: t0 := by
          have hdef : splitChar c (x :: y :: ys) =
              match splitChar c (y :: ys) with
              | [] => [[]]
              | h :: t => if x = c then [] :: h :: t else (x :: h) :: t := rfl
          rw [hdef, hht]
          simp [hx]
        refine ⟨?_, ?_⟩
        · intro u hu
          rw [hsp] at hu
          simp only [List.drop_succ_cons, List.drop_zero] at hu
          rw [← hht] at hu
          exact ih2 (by simp [hyc]) (by simp) u hu
        · intro hh _
          rw [hx] at hh
          exact (hh rfl).elim
      · have hsp : splitChar c (x :: y :: ys) = (x :: h0) :: t0 := by
          have hdef : splitChar c (x :: y :: ys) =
              match splitChar c (y :: ys) with
              | [] => [[]]
              | h :: t => if x = c then [] :: h :: t else (x :: h) :: t := rfl
          rw [hdef, hht]
          simp [hx]
        refine ⟨?_, ?_⟩
        · intro u hu
          rw [hsp] at hu
          simp only [List.drop_succ_cons, List.drop_zero] at hu
          apply ih1
          rw [hht]
          simpa using hu
        · intro _ _ u hu
          rw [hsp] at hu
          rcases List.mem_cons.mp hu with rfl | hu2
          · simp
          · apply ih1
            rw [hht]
            simpa using hu2

/-- Claim C6 counterexample: a share URL whose path has a double slash
directly after the `s` segment resolves successfully, yet with an empty
share token — the path split only discards empty components produced by
a trailing slash, not internal ones. -/
theorem share_token_empty_counterexample :
    extract_share_token "https://cloud.example.com/s//TOKEN" = some "" := by
  decide

/-- Claim C6 (amended): for every share URL whose path contains no two
consecutive slashes (after trailing slashes are stripped), a successful
token extraction yields a non-empty share token. -/
theorem share_token_nonempty (path : String)
    (h : hasSubstr ['/', '/'] (rstripChar '/' path.data) = false) :
    ∀ t, extract_token_from_path path = some t → t ≠ "" := by
  intro t ht
  obtain ⟨i, _, _, hget⟩ := extract_some_first path t ht
  rw [pathParts, List.get?_map] at hget
  cases hu : (splitChar '/' (rstripChar '/' path.data)).get? (i + 1) with
  | none => rw [hu] at hget; cases hget
  | some u =>
    rw [hu] at hget
    have htu : t = String.mk u := (Option.some.inj hget).symm
    have humem : u ∈ (splitChar '/' (rstripChar '/' path.data)).drop 1 := by
      apply List.get?_mem
      rw [List.get?_drop, Nat.add_comm]
      exact hu
    have hne : u ≠ [] :=
      (splitChar_no_empty_aux '/' (rstripChar '/' path.data) h
        (rstripChar_getLast '/' path.data)).1 u humem
    intro hc
    apply hne
    have : (String.mk u).data = ("" : String).data := by rw [← htu, hc]
    simpa using this

/-- Witness for `share_token_nonempty` at a clean concrete path. -/
theorem share_token_nonempty_witness :
    extract_token_from_path "/s/TOKEN" = some "TOKEN" ∧ ("TOKEN" : String) ≠ "" :=
  ⟨by decide, share_token_nonempty "/s/TOKEN" (by decide) "TOKEN" (by decide)⟩

/-! ## Helper lemmas: last-occurrence search (`str.rfind`) -/

lemma splitFirst_isSome_of_prefix (pat s : List Char)
    (h : pat.isPrefixOf s = true) : (splitFirst pat s).isSome = true := by
  cases s with
  | nil =>
    cases pat with
    | nil => simp [splitFirst]
    | cons p ps => simp [List.isPrefixOf] at h
  | cons a as =>
    simp only [splitFirst, if_pos h, Option.isSome_some]

lemma splitFirst_isSome_decomp (pat : List Char) :
    ∀ (pre suf : List Char), (splitFirst pat (pre ++ pat ++ suf)).isSome = true := by
  intro pre
  induction pre with
  | nil =>
    intro suf
    simp only [List.nil_append]
    exact splitFirst_isSome_of_prefix pat (pat ++ suf)
      (List.isPrefixOf_iff_prefix.mpr (List.prefix_append pat suf))
  | cons x pre' ih =>
    intro suf
    have hdef : splitFirst pat ((x :: pre') ++ pat ++ suf) =
        if pat.isPrefixOf (x :: (pre' ++ pat ++ suf)) then
          some ([], (x :: (pre' ++ pat ++ suf)).drop pat.length)
        else
          match splitFirst pat (pre' ++ pat ++ suf) with
          | none => none
          | some (b, a) => some (x :: b, a) := rfl
    rw [hdef]
    by_cases hp : pat.isPrefixOf (x :: (pre' ++ pat ++ suf)) = true
    · rw [if_pos hp]; simp
    · rw [if_neg hp]
      have hrec := ih suf
      cases hr : splitFirst pat (pre' ++ pat ++ suf) with
      | none => rw [hr] at hrec; cases hrec
      | some p => cases p; simp

lemma hasSubstr_of_decomp (pat pre suf : List Char) :
    hasSubstr pat (pre ++ pat ++ suf) = true := by
  rw [hasSubstr]
  exact splitFirst_isSome_decomp pat pre suf

lemma hasSubstr_of_prefix_drop (pat s : List Char) (j : Nat)
    (h : pat.isPrefixOf (s.drop j) = true) : hasSubstr pat s = true := by
  obtain ⟨r, hr⟩ := List.isPrefixOf_iff_prefix.mp h
  have hs : s = s.take j ++ pat ++ r := by
    rw [List.append_assoc, hr, List.take_append_drop]
  calc hasSubstr pat s = hasSubstr pat (s.take j ++ pat ++ r) := by rw [← hs]
    _ = true := hasSubstr_of_decomp pat (s.take j) r

lemma getLast_filter_range (p : Nat → Bool) :
    ∀ (n k : Nat), k < n → p k = true → (∀ j, k < j → p j = false) →
      ((List.range n).filter p).getLast? = some k := by
  intro n
  induction n with
  | zero => intro k hk _ _; exact absurd hk (Nat.not_lt_zero k)
  | succ m ih =>
    intro k hk hp hgt
    rw [List.range_succ, List.filter_append]
    by_cases hkm : k = m
    · subst hkm
      rw [show List.filter p [k] = [k] from by simp [hp]]
      exact List.getLast?_concat _
    · have hkm' : k < m := by omega
      have hpm : p m = false := hgt m hkm'
      rw [show List.filter p [m] = [] from by simp [hpm], List.append_nil]
      exact ih k hkm' hp hgt

lemma rfindD_decomp (pat : List Char) (hpat : pat ≠ []) (pre suf : List Char)
    (hno : hasSubstr pat (pat.drop 1 ++ suf) = false) :
    rfindD pat (pre ++ pat ++ suf) = pre.length := by
  have hgt : ∀ j, pre.length < j →
      pat.isPrefixOf ((pre ++ pat ++ suf).drop j) = false := by
    intro j hj
    cases hq : pat.isPrefixOf ((pre ++ pat ++ suf).drop j) with
    | false => rfl
    | true =>
      exfalso
      have hdj : (pre ++ pat ++ suf).drop j
          = ((pre ++ pat ++ suf).drop (pre.length + 1)).drop (j - (pre.length + 1)) := by
        rw [List.drop_drop]
        congr 1
        omega
      have hdp : (pre ++ pat ++ suf).drop (pre.length + 1) = pat.drop 1 ++ suf := by
        rw [List.append_assoc, List.drop_append, List.drop_append_of_le_length]
        exact Nat.one_le_iff_ne_zero.mpr (fun hz => hpat (List.length_eq_zero.mp hz))
      rw [hdj, hdp] at hq
      have hcontra := hasSubstr_of_prefix_drop pat (pat.drop 1 ++ suf) _ hq
      rw [hcontra] at hno
      cases hno
  have hocc : pat.isPrefixOf ((pre ++ pat ++ suf).drop pre.length) = true := by
    rw [List.append_assoc, List.drop_left]
    exact List.isPrefixOf_iff_prefix.mpr (List.prefix_append pat suf)
  have hlen : pre.length < (pre ++ pat ++ suf).length + 1 := by
    simp [List.length_append]
    omega
  rw [rfindD, getLast_filter_range (fun i => pat.isPrefixOf ((pre ++ pat ++ suf).drop i))
    ((pre ++ pat ++ suf).length + 1) pre.length hlen hocc hgt]
  rfl

/-- Shared helper: when the (slash-stripped) path decomposes around its
last `/s/` occurrence, `_get_base_url` keeps exactly the prefix before
that occurrence. -/
lemma basePathCut_decomp (path : String) (pre suf : List Char)
    (hdec : rstripChar '/' path.data = pre ++ "/s/".data ++ suf)
    (hno : hasSubstr "/s/".data ("s/".data ++ suf) = false) :
    basePathCut path = String.mk pre := by
  have hsub : hasSubstr "/s/".data (rstripChar '/' path.data) = true := by
    rw [hdec]
    exact hasSubstr_of_decomp _ pre suf
  rw [basePathCut, if_pos hsub, hdec]
  have hfind : rfindD "/s/".data (pre ++ "/s/".data ++ suf) = pre.length :=
    rfindD_decomp "/s/".data (by decide) pre suf
      (by rw [show ("/s/".data).drop 1 = "s/".data from rfl]; exact hno)
  rw [hfind, List.append_assoc, List.take_left]

/-- Claim C7 counterexample: on the share URL
`https://cloud.example.com/s/x/s/y`, whose path has two `/s/`
occurrences, the base URL is cut at the **last** `/s/` but the share
token is taken after the **first** `s` segment: the token is `"x"`, not
the `"y"` that follows the last `s` segment as the claim states. -/
theorem resolve_last_s_counterexample :
    extract_share_token "https://cloud.example.com/s/x/s/y" = some "x" ∧
    get_base_url "https://cloud.example.com/s/x/s/y" = "https://cloud.example.com/s/x" ∧
    pathParts (urlparse "https://cloud.example.com/s/x/s/y").path = ["", "s", "x", "s", "y"] ∧
    ("x" : String) ≠ "y" := by
  exact ⟨by decide, by decide, by decide, by decide⟩

/-- Claim C7 (amended): for a path with several `/s/` occurrences the two
halves of `resolve` disagree: the base URL keeps the path prefix
strictly before the **last** `/s/` occurrence, while the share token is
the segment following the **first** `s` segment. -/
theorem base_last_s_token_first_s :
    (∀ (path : String) (pre suf : List Char),
      rstripChar '/' path.data = pre ++ "/s/".data ++ suf →
      hasSubstr "/s/".data ("s/".data ++ suf) = false →
      basePathCut path = String.mk pre) ∧
    (∀ (path t : String), extract_token_from_path path = some t →
      ∃ i, (pathParts path).get? i = some "s" ∧
        (∀ j, j < i → (pathParts path).get? j ≠ some "s") ∧
        (pathParts path).get? (i + 1) = some t) :=
  ⟨fun path pre suf h1 h2 => basePathCut_decomp path pre suf h1 h2,
   fun path t h => extract_some_first path t h⟩

/-- Witness for `base_last_s_token_first_s` at the concrete two-`/s/`
path `/s/x/s/y`. -/
theorem base_last_s_token_first_s_witness :
    basePathCut "/s/x/s/y" = String.mk "/s/x".data ∧
    (∃ i, (pathParts "/s/x/s/y").get? i = some "s" ∧
      (∀ j, j < i → (pathParts "/s/x/s/y").get? j ≠ some "s") ∧
      (pathParts "/s/x/s/y").get? (i + 1) = some "x") :=
  ⟨base_last_s_token_first_s.1 "/s/x/s/y" "/s/x".data "y".data (by decide) (by decide),
   base_last_s_token_first_s.2 "/s/x/s/y" "x" (by decide)⟩

/-! ## Helper lemmas: splitting, joining and merging URL paths -/

lemma splitFirst_single_none (c : Char) :
    ∀ s : List Char, c ∉ s → splitFirst [c] s = none := by
  intro s
  induction s with
  | nil => intro _; rfl
  | cons x xs ih =>
    intro h
    have hx : x ≠ c := fun hc => h (by rw [hc]; exact List.mem_cons_self c xs)
    have hcx : ¬c = x := fun hc => hx hc.symm
    have hpre : [c].isPrefixOf (x :: xs) = false := by
      simp [List.isPrefixOf, hcx]
    rw [splitFirst, if_neg (by simp [hpre]), ih (fun hm => h (List.mem_cons_of_mem x hm))]

lemma splitFirst_single_cons (c : Char) :
    ∀ (xs ys : List Char), c ∉ xs → splitFirst [c] (xs ++ c :: ys) = some (xs, ys) := by
  intro xs
  induction xs with
  | nil =>
    intro ys _
    have hpre : [c].isPrefixOf (c :: ys) = true := by simp [List.isPrefixOf]
    rw [List.nil_append, splitFirst, if_pos hpre]
    rfl
  | cons x xs' ih =>
    intro ys h
    have hx : x ≠ c := fun hc => h (by rw [hc]; exact List.mem_cons_self c xs')
    have hcx : ¬c = x := fun hc => hx hc.symm
    have hpre : [c].isPrefixOf (x :: (xs' ++ c :: ys)) = false := by
      simp [List.isPrefixOf, hcx]
    rw [List.cons_append, splitFirst, if_neg (by simp [hpre]),
      ih ys (fun hm => h (List.mem_cons_of_mem x hm))]

lemma takeWhile_append_all (p : Char → Bool) (a b : List Char)
    (h : ∀ x ∈ a, p x = true) : (a ++ b).takeWhile p = a ++ b.takeWhile p := by
  induction a with
  | nil => rfl
  | cons x xs ih =>
    have hx : p x = true := h x (List.mem_cons_self x xs)
    simp only [List.cons_append, List.takeWhile_cons, hx, if_true]
    rw [ih (fun y hy => h y (List.mem_cons_of_mem x hy))]

lemma dropWhile_append_all (p : Char → Bool) (a b : List Char)
    (h : ∀ x ∈ a, p x = true) : (a ++ b).dropWhile p = b.dropWhile p := by
  induction a with
  | nil => rfl
  | cons x xs ih =>
    have hx : p x = true := h x (List.mem_cons_self x xs)
    simp only [List.cons_append, List.dropWhile_cons, hx, if_true]
    exact ih (fun y hy => h y (List.mem_cons_of_mem x hy))

lemma joinChar_prepend (c : Char) (a h : List Char) (t : List (List Char)) :
    joinChar c ((a ++ h) :: t) = a ++ joinChar c (h :: t) := by
  cases t with
  | nil => rfl
  | cons y t' => simp [joinChar, List.append_assoc]

lemma joinChar_splitChar (c : Char) :
    ∀ s : List Char, joinChar c (splitChar c s) = s := by
  intro s
  induction s with
  | nil => rfl
  | cons x xs ih =>
    obtain ⟨h0, t0, hht⟩ := splitChar_cons_ex c xs
    by_cases hx : x = c
    · have hsp : splitChar c (x :: xs) = [] :: h0 :: t0 := by
        have hdef : splitChar c (x :: xs) =
            match splitChar c xs with
            | [] => [[]]
            | h :: t => if x = c then [] :: h :: t else (x :: h) :: t := rfl
        rw [hdef, hht]
        simp [hx]
      rw [hsp, show joinChar c ([] :: h0 :: t0) = c :: joinChar c (h0 :: t0) from rfl,
        ← hht, ih, hx]
    · have hsp : splitChar c (x :: xs) = (x :: h0) :: t0 := by
        have hdef : splitChar c (x :: xs) =
            match splitChar c xs with
            | [] => [[]]
            | h :: t => if x = c then [] :: h :: t else (x :: h) :: t := rfl
        rw [hdef, hht]
        simp [hx]
      rw [hsp, show (x :: h0) = [x] ++ h0 from rfl, joinChar_prepend, ← hht, ih]
      rfl

lemma splitChar_append_sep (c : Char) :
    ∀ (xs ys : List Char), splitChar c (xs ++ c :: ys) = splitChar c xs ++ splitChar c ys := by
  intro xs
  induction xs with
  | nil =>
    intro ys
    obtain ⟨h0, t0, hht⟩ := splitChar_cons_ex c ys
    have hdef : splitChar c (c :: ys) =
        match splitChar c ys with
        | [] => [[]]
        | h :: t => if c = c then [] :: h :: t else (c :: h) :: t := rfl
    rw [List.nil_append, hdef, hht]
    simp [splitChar, hht]
  | cons x xs' ih =>
    intro ys
    obtain ⟨h1, t1, hht1⟩ := splitChar_cons_ex c (xs' ++ c :: ys)
    obtain ⟨h2, t2, hht2⟩ := splitChar_cons_ex c xs'
    have hinner : splitChar c (xs' ++ c :: ys) = splitChar c xs' ++ splitChar c ys := ih ys
    have hdefL : splitChar c ((x :: xs') ++ c :: ys) =
        match splitChar c (xs' ++ c :: ys) with
        | [] => [[]]
        | h :: t => if x = c then [] :: h :: t else (x :: h) :: t := rfl
    have hdefR : splitChar c (x :: xs') =
        match splitChar c xs' with
        | [] => [[]]
        | h :: t => if x = c then [] :: h :: t else (x :: h) :: t := rfl
    rw [hdefL, hinner, hht2]
    rw [hdefR, hht2]
    by_cases hx : x = c
    · simp [hx]
    · simp [hx]

lemma splitChar_not_mem (c : Char) :
    ∀ (s : List Char) (u : List Char), u ∈ splitChar c s → c ∉ u := by
  intro s
  induction s with
  | nil =>
    intro u hu
    simp [splitChar] at hu
    simp [hu]
  | cons x xs ih =>
    intro u hu
    obtain ⟨h0, t0, hht⟩ := splitChar_cons_ex c xs
    by_cases hx : x = c
    · have hsp : splitChar c (x :: xs) = [] :: h0 :: t0 := by
        have hdef : splitChar c (x :: xs) =
            match splitChar c xs with
            | [] => [[]]
            | h :: t => if x = c then [] :: h :: t else (x :: h) :: t := rfl
        rw [hdef, hht]
        simp [hx]
      rw [hsp] at hu
      rcases List.mem_cons.mp hu with rfl | hu2
      · simp
      · exact ih u (by rw [hht]; exact hu2)
    · have hsp : splitChar c (x :: xs) = (x :: h0) :: t0 := by
        have hdef : splitChar c (x :: xs) =
            match splitChar c xs with
            | [] => [[]]
            | h :: t => if x = c then [] :: h :: t else (x :: h) :: t := rfl
        rw [hdef, hht]
        simp [hx]
      rw [hsp] at hu
      rcases List.mem_cons.mp hu with rfl | hu2
      · intro hmem
        rcases List.mem_cons.mp hmem with hc | hc
        · exact hx hc.symm
        · exact ih h0 (by rw [hht]; exact List.mem_cons_self h0 t0) hc
      · exact ih u (by rw [hht]; exact List.mem_cons_of_mem h0 hu2)

lemma splitChar_no_sep (c : Char) :
    ∀ s : List Char, c ∉ s → splitChar c s = [s] := by
  intro s
  induction s with
  | nil => intro _; rfl
  | cons x xs ih =>
    intro h
    have hx : x ≠ c := fun hc => h (by rw [hc]; exact List.mem_cons_self c xs)
    have hxs := ih (fun hm => h (List.mem_cons_of_mem x hm))
    have hdef : splitChar c (x :: xs) =
        match splitChar c xs with
        | [] => [[]]
        | h :: t => if x = c then [] :: h :: t else (x :: h) :: t := rfl
    rw [hdef, hxs]
    simp [hx]

lemma joinChar_cons_of_ne_nil (c : Char) (L : List (List Char)) (hL : L ≠ []) :
    joinChar c ([] :: L) = c :: joinChar c L := by
  cases L with
  | nil => exact absurd rfl hL
  | cons y t => rfl

lemma joinChar_append (c : Char) :
    ∀ (A B : List (List Char)), A ≠ [] → B ≠ [] →
      joinChar c (A ++ B) = joinChar c A ++ c :: joinChar c B := by
  intro A
  induction A with
  | nil => intro B hA _; exact absurd rfl hA
  | cons a0 A' ih =>
    intro B _ hB
    cases A' with
    | nil =>
      cases B with
      | nil => exact absurd rfl hB
      | cons b0 B' => rfl
    | cons a1 A'' =>
      have h1 : joinChar c ((a0 :: a1 :: A'') ++ B)
          = a0 ++ c :: joinChar c ((a1 :: A'') ++ B) := rfl
      rw [h1, ih B (by simp) hB]
      simp [joinChar, List.append_assoc]

lemma filterMiddle_concat (x : List Char) (xs : List (List Char)) (z : List Char) :
    filterMiddle (x :: (xs ++ [z])) =
      x :: (xs.filter (fun s => !s.isEmpty) ++ [z]) := by
  cases xs with
  | nil => rfl
  | cons m ms =>
    have hdef : filterMiddle (x :: ((m :: ms) ++ [z])) =
        x :: ((((m :: ms) ++ [z]).dropLast.filter (fun s => !s.isEmpty))
          ++ ((m :: ms) ++ [z]).getLast?.toList) := rfl
    rw [hdef, List.dropLast_concat, List.getLast?_concat]
    rfl

lemma resolveSegs_no_dots :
    ∀ (segs : List (List Char)) (acc : List (List Char)),
      (∀ m ∈ segs, m ≠ ['.'] ∧ m ≠ ['.', '.']) →
      segs.foldl resolveStep acc = acc ++ segs := by
  intro segs
  induction segs with
  | nil => intro acc _; simp
  | cons m rest ih =>
    intro acc h
    have hm := h m (List.mem_cons_self m rest)
    have hstep : resolveStep acc m = acc ++ [m] := by
      rw [resolveStep, if_neg hm.2, if_neg hm.1]
    rw [List.foldl_cons, hstep, ih (acc ++ [m]) (fun u hu => h u (List.mem_cons_of_mem m hu))]
    simp

/-! ## Helper lemmas: parsing well-formed http(s) URLs -/

lemma splitScheme_abs (sch nl p : List Char)
    (hsch : sch = "https".data ∨ sch = "http".data) :
    splitScheme (sch ++ "://".data ++ nl ++ p) [] = (sch, '/' :: '/' :: (nl ++ p)) := by
  have hurl : sch ++ "://".data ++ nl ++ p = sch ++ ':' :: ('/' :: '/' :: (nl ++ p)) := by
    rw [show "://".data = [':', '/', '/'] from rfl]
    simp [List.append_assoc]
  have hcolon : ':' ∉ sch := by rcases hsch with rfl | rfl <;> decide
  have hsplit : splitFirst [':'] (sch ++ ':' :: ('/' :: '/' :: (nl ++ p)))
      = some (sch, '/' :: '/' :: (nl ++ p)) := splitFirst_single_cons ':' sch _ hcolon
  have hdef : splitScheme (sch ++ "://".data ++ nl ++ p) [] =
      match splitFirst [':'] (sch ++ "://".data ++ nl ++ p) with
      | none => ([], sch ++ "://".data ++ nl ++ p)
      | some (before, after) =>
        if before ≠ [] ∧ (∃ c, before.head? = some c ∧ c.toNat < 128 ∧ c.isAlpha = true)
            ∧ (∀ c ∈ before, isSchemeChar c = true)
        then (before.map Char.toLower, after)
        else ([], sch ++ "://".data ++ nl ++ p) := rfl
  rw [hdef, hurl, hsplit]
  rcases hsch with rfl | rfl
  · show (if "https".data ≠ [] ∧ (∃ c, "https".data.head? = some c ∧ c.toNat < 128
          ∧ c.isAlpha = true) ∧ (∀ c ∈ "https".data, isSchemeChar c = true)
        then (List.map Char.toLower "https".data, '/' :: '/' :: (nl ++ p))
        else ([], "https".data ++ ':' :: '/' :: '/' :: (nl ++ p)))
        = ("https".data, '/' :: '/' :: (nl ++ p))
    rw [if_pos ⟨by decide, ⟨'h', rfl, by decide, by decide⟩, by decide⟩]
    rw [show List.map Char.toLower "https".data = "https".data from by decide]
  · show (if "http".data ≠ [] ∧ (∃ c, "http".data.head? = some c ∧ c.toNat < 128
          ∧ c.isAlpha = true) ∧ (∀ c ∈ "http".data, isSchemeChar c = true)
        then (List.map Char.toLower "http".data, '/' :: '/' :: (nl ++ p))
        else ([], "http".data ++ ':' :: '/' :: '/' :: (nl ++ p)))
        = ("http".data, '/' :: '/' :: (nl ++ p))
    rw [if_pos ⟨by decide, ⟨'h', rfl, by decide, by decide⟩, by decide⟩]
    rw [show List.map Char.toLower "http".data = "http".data from by decide]

lemma urlsplitL_abs (sch nl p : List Char)
    (hsch : sch = "https".data ∨ sch = "http".data)
    (hnl : ∀ c ∈ nl, isNetlocChar c = true)
    (hp0 : p = [] ∨ p.head? = some '/')
    (hpq : '?' ∉ p) (hpf : '#' ∉ p) :
    urlsplitL (sch ++ "://".data ++ nl ++ p) [] = ⟨sch, nl, p, [], []⟩ := by
  have htakep : p.takeWhile isNetlocChar = [] := by
    rcases hp0 with rfl | hp
    · rfl
    · cases p with
      | nil => rfl
      | cons a rest =>
        have ha : a = '/' := Option.some.inj hp
        subst ha
        rw [List.takeWhile_cons, if_neg (by decide)]
  have hdropp : p.dropWhile isNetlocChar = p := by
    rcases hp0 with rfl | hp
    · rfl
    · cases p with
      | nil => rfl
      | cons a rest =>
        have ha : a = '/' := Option.some.inj hp
        subst ha
        rw [List.dropWhile_cons, if_neg (by decide)]
  have htake : (nl ++ p).takeWhile isNetlocChar = nl := by
    rw [takeWhile_append_all isNetlocChar nl p hnl, htakep, List.append_nil]
  have hdrop : (nl ++ p).dropWhile isNetlocChar = p := by
    rw [dropWhile_append_all isNetlocChar nl p hnl, hdropp]
  have hfrag : splitFirst ['#'] p = none := splitFirst_single_none '#' p hpf
  have hquery : splitFirst ['?'] p = none := splitFirst_single_none '?' p hpq
  simp only [urlsplitL, splitScheme_abs sch nl p hsch]
  have hpre2 : ['/', '/'].isPrefixOf ('/' :: '/' :: (nl ++ p)) = true := by
    simp [List.isPrefixOf]
  rw [if_pos hpre2]
  simp only [List.drop_succ_cons, List.drop_zero, htake, hdrop, hfrag, hquery]

lemma urlparseL_abs (sch nl p : List Char)
    (hsch : sch = "https".data ∨ sch = "http".data)
    (hnl : ∀ c ∈ nl, isNetlocChar c = true)
    (hp0 : p = [] ∨ p.head? = some '/')
    (hpq : '?' ∉ p) (hpf : '#' ∉ p) (hps : ';' ∉ p) :
    urlparseL (sch ++ "://".data ++ nl ++ p) [] = ⟨sch, nl, p, [], [], []⟩ := by
  simp only [urlparseL, urlsplitL_abs sch nl p hsch hnl hp0 hpq hpf]
  rw [if_neg hps]

lemma urlsplitL_rel (ref defScheme : List Char)
    (hcol : ':' ∉ ref) (hsl : ref.head? ≠ some '/')
    (hq : '?' ∉ ref) (hf : '#' ∉ ref) :
    urlsplitL ref defScheme = ⟨defScheme, [], ref, [], []⟩ := by
  have hss : splitScheme ref defScheme = (defScheme, ref) := by
    have hdef : splitScheme ref defScheme =
        match splitFirst [':'] ref with
        | none => (defScheme, ref)
        | some (before, after) =>
          if before ≠ [] ∧ (∃ c, before.head? = some c ∧ c.toNat < 128 ∧ c.isAlpha = true)
              ∧ (∀ c ∈ before, isSchemeChar c = true)
          then (before.map Char.toLower, after)
          else (defScheme, ref) := rfl
    rw [hdef, splitFirst_single_none ':' ref hcol]
  have hnp : ['/', '/'].isPrefixOf ref = false := by
    cases ref with
    | nil => rfl
    | cons a as =>
      have ha : ¬('/' = a) := fun hc => hsl (by rw [← hc]; rfl)
      simp [List.isPrefixOf, ha]
  simp only [urlsplitL, hss]
  rw [if_neg (by simp [hnp])]
  rw [splitFirst_single_none '#' ref hf, splitFirst_single_none '?' ref hq]

lemma urlparseL_rel (ref defScheme : List Char)
    (hcol : ':' ∉ ref) (hsl : ref.head? ≠ some '/')
    (hq : '?' ∉ ref) (hf : '#' ∉ ref) (hs : ';' ∉ ref) :
    urlparseL ref defScheme = ⟨defScheme, [], ref, [], [], []⟩ := by
  simp only [urlparseL, urlsplitL_rel ref defScheme hcol hsl hq hf]
  rw [if_neg hs]

/-- Core merge lemma: joining a relative reference with clean segments
onto a well-formed http(s) base URL whose path ends in `/` and has no
empty or dot segments simply concatenates the reference. -/
lemma urljoinL_merge (sch nl bp ref : List Char) (mids : List (List Char))
    (rsegs : List (List Char)) (r0 : List Char) (rrest : List (List Char))
    (hsch : sch = "https".data ∨ sch = "http".data)
    (hnl : nl ≠ []) (hnlc : ∀ c ∈ nl, isNetlocChar c = true)
    (hbp : splitChar '/' bp = [] :: (mids ++ [[]]))
    (hmids : ∀ m ∈ mids, m ≠ [] ∧ m ≠ ['.'] ∧ m ≠ ['.', '.'])
    (hbpq : '?' ∉ bp) (hbpf : '#' ∉ bp) (hbps : ';' ∉ bp)
    (href : splitChar '/' ref = rsegs)
    (hr : rsegs = r0 :: rrest) (hr0 : r0 ≠ [])
    (hrh : ref.head? ≠ some '/')
    (hrc : ':' ∉ ref) (hrq : '?' ∉ ref) (hrf : '#' ∉ ref) (hrs : ';' ∉ ref)
    (hrmid : ∀ m ∈ rsegs.dropLast, m ≠ [] ∧ m ≠ ['.'] ∧ m ≠ ['.', '.'])
    (hrlast : ∀ m, rsegs.getLast? = some m → m ≠ ['.'] ∧ m ≠ ['.', '.']) :
    urljoinL (sch ++ "://".data ++ nl ++ bp) ref
      = sch ++ "://".data ++ nl ++ bp ++ ref := by
  have hbpj : bp = joinChar '/' ([] :: (mids ++ [[]])) := by
    rw [← hbp, joinChar_splitChar]
  have hbph : bp = '/' :: joinChar '/' (mids ++ [[]]) := by
    rw [hbpj, joinChar_cons_of_ne_nil '/' (mids ++ [[]]) (by simp)]
  have hbpne : bp ≠ [] := by rw [hbph]; simp
  have hbphead : bp.head? = some '/' := by rw [hbph]; rfl
  have hrefj : ref = joinChar '/' rsegs := by
    rw [← href, joinChar_splitChar]
  have hrefne : ref ≠ [] := by
    intro h
    have h1 : rsegs = [[]] := by rw [← href, h]; rfl
    rw [hr] at h1
    injection h1 with h2 _
    exact hr0 h2
  have hrne : rsegs ≠ [] := by rw [hr]; simp
  have hbasene : sch ++ "://".data ++ nl ++ bp ≠ [] := by
    rcases hsch with rfl | rfl <;> simp
  have hb : urlparseL (sch ++ "://".data ++ nl ++ bp) [] = ⟨sch, nl, bp, [], [], []⟩ :=
    urlparseL_abs sch nl bp hsch hnlc (Or.inr hbphead) hbpq hbpf hbps
  have hrp : urlparseL ref sch = ⟨sch, [], ref, [], [], []⟩ :=
    urlparseL_rel ref sch hrc hrh hrq hrf hrs
  have husesrel : sch ∈ usesRelative := by rcases hsch with rfl | rfl <;> decide
  have husesnet : sch ∈ usesNetloc := by rcases hsch with rfl | rfl <;> decide
  rcases List.eq_nil_or_concat rsegs with hcon | ⟨rdl, rlast, hrdl0⟩
  · exact absurd hcon hrne
  have hrdl : rsegs = rdl ++ [rlast] := by rw [hrdl0, List.concat_eq_append]
  have hrlast' : rsegs.getLast? = some rlast := by
    rw [hrdl]; exact List.getLast?_concat rdl
  have hrdrop : rsegs.dropLast = rdl := by
    rw [hrdl]; exact List.dropLast_concat
  have hlastbp : ([] :: (mids ++ [[]])).getLast? = some ([] : List Char) := by
    rw [show ([] :: (mids ++ [[]])) = (([] :: mids) ++ [[]]) from by simp]
    exact List.getLast?_concat _
  -- the merged segment list after the empty-middle filter
  have hshape : ([] :: (mids ++ [[]])) ++ rsegs
      = [] :: ((mids ++ [[]] ++ rdl) ++ [rlast]) := by
    rw [hrdl]; simp [List.append_assoc]
  have hfil : (mids ++ [[]] ++ rdl).filter (fun s => !s.isEmpty) = mids ++ rdl := by
    rw [List.filter_append, List.filter_append]
    have h1 : mids.filter (fun s => !s.isEmpty) = mids := by
      rw [List.filter_eq_self]
      intro m hm
      simpa using (hmids m hm).1
    have h2 : ([[]] : List (List Char)).filter (fun s => !s.isEmpty) = [] := rfl
    have h3 : rdl.filter (fun s => !s.isEmpty) = rdl := by
      rw [List.filter_eq_self]
      intro m hm
      rw [← hrdrop] at hm
      simpa using (hrmid m hm).1
    rw [h1, h2, h3, List.append_nil]
  have hsegs : filterMiddle (([] :: (mids ++ [[]])) ++ rsegs)
      = [] :: ((mids ++ rdl) ++ [rlast]) := by
    rw [hshape, filterMiddle_concat, hfil]
  have hnodots : ∀ m ∈ ([] :: ((mids ++ rdl) ++ [rlast]) : List (List Char)),
      m ≠ ['.'] ∧ m ≠ ['.', '.'] := by
    intro m hm
    rcases List.mem_cons.mp hm with rfl | hm2
    · exact ⟨by decide, by decide⟩
    rcases List.mem_append.mp hm2 with hm3 | hm4
    · rcases List.mem_append.mp hm3 with hm5 | hm6
      · exact ⟨(hmids m hm5).2.1, (hmids m hm5).2.2⟩
      · rw [← hrdrop] at hm6
        exact ⟨(hrmid m hm6).2.1, (hrmid m hm6).2.2⟩
    · have : m = rlast := by simpa using hm4
      subst this
      exact hrlast m hrlast'
  have hresolved : resolveSegs ([] :: ((mids ++ rdl) ++ [rlast]))
      = [] :: ((mids ++ rdl) ++ [rlast]) := by
    rw [resolveSegs, resolveSegs_no_dots _ [] hnodots]
    rfl
  have hseglast : ([] :: ((mids ++ rdl) ++ [rlast])).getLast? = some rlast := by
    rw [show ([] :: ((mids ++ rdl) ++ [rlast])) = (([] :: (mids ++ rdl)) ++ [rlast]) from by
      simp]
    exact List.getLast?_concat _
  have hjo : joinChar '/' ([] :: ((mids ++ rdl) ++ [rlast])) = bp ++ ref := by
    have h1 : ([] :: ((mids ++ rdl) ++ [rlast])) = ([] :: mids) ++ rsegs := by
      rw [hrdl]; simp [List.append_assoc]
    rw [h1, joinChar_append '/' ([] :: mids) rsegs (by simp) hrne]
    have h2 : bp = joinChar '/' ([] :: mids) ++ ['/'] := by
      rw [hbpj, show ([] :: (mids ++ [[]])) = (([] :: mids) ++ [[]]) from by simp,
        joinChar_append '/' ([] :: mids) [[]] (by simp) (by simp)]
      rfl
    rw [h2, hrefj]
    simp
  have hjone : bp ++ ref ≠ [] := by
    intro h
    exact hbpne (List.append_eq_nil.mp h).1
  have hfin : urlunparseL sch nl (bp ++ ref) [] [] []
      = sch ++ "://".data ++ nl ++ bp ++ ref := by
    have hhead : (bp ++ ref).head? = some '/' := by
      rw [hbph]; rfl
    have hschne : sch ≠ [] := by rcases hsch with rfl | rfl <;> simp
    have hif : ∀ X Y : List Char, (if ([] : List Char) ≠ [] then X else Y) = Y :=
      fun X Y => if_neg (fun h => h rfl)
    simp only [urlunparseL, urlunsplitL, hif]
    rw [if_pos (Or.inl hnl)]
    rw [if_neg (show ¬((bp ++ ref) ≠ [] ∧ (bp ++ ref).head? ≠ some '/') from
      fun hcontra => hcontra.2 hhead)]
    rw [if_pos hschne]
    simp [List.append_assoc]
  -- now assemble the whole computation
  simp only [urljoinL]
  rw [if_neg hbasene, if_neg hrefne, hb, hrp]
  dsimp only
  rw [if_neg (show ¬(sch ≠ sch ∨ sch ∉ usesRelative) from fun h =>
    h.elim (fun h1 => h1 rfl) (fun h2 => h2 husesrel))]
  rw [if_neg (show ¬(sch ∈ usesNetloc ∧ ([] : List Char) ≠ []) from fun h => h.2 rfl)]
  rw [if_pos husesnet]
  rw [if_neg (show ¬(ref = [] ∧ ([] : List Char) = []) from fun h => hrefne h.1)]
  rw [hbp, if_neg (show ¬(([] :: (mids ++ [[]])).getLast? ≠ some []) from fun h => h hlastbp)]
  rw [if_neg hrh, href, hsegs, hresolved]
  rw [if_neg (show ¬(([] :: ((mids ++ rdl) ++ [rlast])).getLast? = some ['.'] ∨
      ([] :: ((mids ++ rdl) ++ [rlast])).getLast? = some ['.', '.']) from by
    rw [hseglast]
    rintro (h | h)
    · exact (hrlast rlast hrlast').1 (Option.some.inj h)
    · exact (hrlast rlast hrlast').2 (Option.some.inj h))]
  rw [hjo, if_neg (fun h => hjone h), hfin]

/-- Shared helper: on a well-formed http(s) base URL whose path has no
empty or dot segments (and no trailing slash), `_construct_webdav_url`
appends exactly `/public.php/webdav/`. -/
lemma construct_webdav_eq (sch nl bp0 : List Char) (mids : List (List Char))
    (hsch : sch = "https".data ∨ sch = "http".data)
    (hnl : nl ≠ []) (hnlc : ∀ c ∈ nl, isNetlocChar c = true)
    (hbp0 : splitChar '/' bp0 = [] :: mids)
    (hmids : ∀ m ∈ mids, m ≠ [] ∧ m ≠ ['.'] ∧ m ≠ ['.', '.'])
    (hq : '?' ∉ bp0) (hf : '#' ∉ bp0) (hs : ';' ∉ bp0) :
    construct_webdav_url (String.mk (sch ++ "://".data ++ nl ++ bp0))
      = String.mk ((sch ++ "://".data ++ nl ++ bp0) ++ "/public.php/webdav/".data) := by
  have hround : bp0 = joinChar '/' ([] :: mids) := by
    rw [← hbp0, joinChar_splitChar]
  -- the base URL never ends in '/'
  have hlast : (sch ++ "://".data ++ nl ++ bp0).getLast? ≠ some '/' := by
    rcases List.eq_nil_or_concat mids with hnilm | ⟨mdl, mlast, hmdl0⟩
    · have hbp0e : bp0 = [] := by rw [hround, hnilm]; rfl
      rcases List.eq_nil_or_concat nl with hniln | ⟨ndl, nb, hndl0⟩
      · exact absurd hniln hnl
      have hndl : nl = ndl ++ [nb] := by rw [hndl0, List.concat_eq_append]
      have hnb : isNetlocChar nb = true := hnlc nb (by rw [hndl]; simp)
      have hnbne : nb ≠ '/' := by
        intro h
        rw [h] at hnb
        revert hnb
        decide
      have hgl : (sch ++ "://".data ++ nl ++ bp0).getLast? = some nb := by
        rw [hbp0e, List.append_nil, hndl,
          show sch ++ "://".data ++ (ndl ++ [nb])
            = (sch ++ "://".data ++ ndl) ++ [nb] from by simp [List.append_assoc]]
        exact List.getLast?_concat _
      rw [hgl]
      intro hc
      exact hnbne (Option.some.inj hc)
    · have hmdl : mids = mdl ++ [mlast] := by rw [hmdl0, List.concat_eq_append]
      have hml_mem : mlast ∈ mids := by rw [hmdl]; simp
      have hml_ne : mlast ≠ [] := (hmids mlast hml_mem).1
      have hml_noslash : '/' ∉ mlast :=
        splitChar_not_mem '/' bp0 mlast (by rw [hbp0]; exact List.mem_cons_of_mem _ hml_mem)
      rcases List.eq_nil_or_concat mlast with hml0 | ⟨K, b, hK0⟩
      · exact absurd hml0 hml_ne
      have hK : mlast = K ++ [b] := by rw [hK0, List.concat_eq_append]
      have hbne : b ≠ '/' := by
        intro hbe
        apply hml_noslash
        rw [hK, hbe]
        simp
      have hbp0form : bp0 = joinChar '/' ([] :: mdl) ++ '/' :: mlast := by
        rw [hround, hmdl, show ([] :: (mdl ++ [mlast])) = (([] :: mdl) ++ [mlast]) from by simp,
          joinChar_append '/' ([] :: mdl) [mlast] (by simp) (by simp)]
        rfl
      have hgl : (sch ++ "://".data ++ nl ++ bp0).getLast? = some b := by
        rw [hbp0form, hK,
          show sch ++ "://".data ++ nl ++ (joinChar '/' ([] :: mdl) ++ '/' :: (K ++ [b]))
            = (sch ++ "://".data ++ nl ++ (joinChar '/' ([] :: mdl) ++ '/' :: K)) ++ [b] from by
          simp [List.append_assoc]]
        exact List.getLast?_concat _
      rw [hgl]
      intro hc
      exact hbne (Option.some.inj hc)
  -- chunk conditions for the merged base path bp0 ++ "/"
  have hbp' : splitChar '/' (bp0 ++ ['/']) = [] :: (mids ++ [[]]) := by
    rw [show (['/'] : List Char) = '/' :: [] from rfl, splitChar_append_sep, hbp0]
    rfl
  have hq' : '?' ∉ bp0 ++ ['/'] := by
    intro h
    rcases List.mem_append.mp h with h1 | h2
    · exact hq h1
    · revert h2; decide
  have hf' : '#' ∉ bp0 ++ ['/'] := by
    intro h
    rcases List.mem_append.mp h with h1 | h2
    · exact hf h1
    · revert h2; decide
  have hs' : ';' ∉ bp0 ++ ['/'] := by
    intro h
    rcases List.mem_append.mp h with h1 | h2
    · exact hs h1
    · revert h2; decide
  have hmerge := urljoinL_merge sch nl (bp0 ++ ['/']) "public.php/webdav/".data mids
    ["public.php".data, "webdav".data, []] "public.php".data ["webdav".data, []]
    hsch hnl hnlc hbp' hmids hq' hf' hs'
    (by decide) rfl (by decide) (by decide) (by decide) (by decide) (by decide) (by decide)
    (by decide)
    (by
      intro m hm
      have hm2 : some ([] : List Char) = some m := hm
      rw [← Option.some.inj hm2]
      exact ⟨by decide, by decide⟩)
  -- assemble
  simp only [construct_webdav_url]
  rw [if_neg (show ¬((String.mk (sch ++ "://".data ++ nl ++ bp0)).data.getLast? = some '/')
    from hlast)]
  show String.mk (urljoinL ((sch ++ "://".data ++ nl ++ bp0) ++ ['/'])
      "public.php/webdav/".data)
    = String.mk ((sch ++ "://".data ++ nl ++ bp0) ++ "/public.php/webdav/".data)
  apply congrArg String.mk
  rw [List.append_assoc (sch ++ "://".data ++ nl) bp0 ['/'],
    List.append_assoc (sch ++ "://".data ++ nl) bp0 "/public.php/webdav/".data,
    hmerge]
  simp [List.append_assoc]

/-- Claim C5 counterexample: the share URL
`https://cloud.example.com/a//b/s/T` resolves successfully, but its
webdavURL is NOT baseURL joined with `/public.php/webdav/`: `urljoin`
collapses the internal double slash of the base path, so the webdavURL
drops the empty segment that baseURL still contains. -/
theorem webdav_url_join_counterexample :
    extract_share_token "https://cloud.example.com/a//b/s/T" = some "T" ∧
    get_base_url "https://cloud.example.com/a//b/s/T" = "https://cloud.example.com/a//b" ∧
    construct_webdav_url (get_base_url "https://cloud.example.com/a//b/s/T")
      = "https://cloud.example.com/a/b/public.php/webdav/" ∧
    construct_webdav_url (get_base_url "https://cloud.example.com/a//b/s/T")
      ≠ get_base_url "https://cloud.example.com/a//b/s/T" ++ "/public.php/webdav/" := by
  exact ⟨by decide, by decide, by decide, by decide⟩

/-- Claim C5 (amended): for every http(s) base URL with a non-empty
netloc (free of `/?#`) and a path whose segments are non-empty and not
`.` or `..` (hence no trailing slash, no double slash), the webdav URL
is exactly the base URL joined with `/public.php/webdav/` by a single
slash; in particular the two spec examples hold through the full
resolve pipeline. -/
theorem webdav_url_join :
    (∀ (sch nl bp0 : List Char) (mids : List (List Char)),
      (sch = "https".data ∨ sch = "http".data) →
      nl ≠ [] → (∀ c ∈ nl, isNetlocChar c = true) →
      splitChar '/' bp0 = [] :: mids →
      (∀ m ∈ mids, m ≠ [] ∧ m ≠ ['.'] ∧ m ≠ ['.', '.']) →
      '?' ∉ bp0 → '#' ∉ bp0 → ';' ∉ bp0 →
      construct_webdav_url (String.mk (sch ++ "://".data ++ nl ++ bp0))
        = String.mk (sch ++ "://".data ++ nl ++ bp0) ++ "/public.php/webdav/") ∧
    construct_webdav_url (get_base_url "https://cloud.example.com/s/TOKEN")
      = "https://cloud.example.com/public.php/webdav/" ∧
    construct_webdav_url (get_base_url "https://cloud.example.com/nextcloud/s/TOKEN")
      = "https://cloud.example.com/nextcloud/public.php/webdav/" := by
  refine ⟨?_, by decide, by decide⟩
  intro sch nl bp0 mids hsch hnl hnlc hbp0 hmids hq hf hs
  rw [construct_webdav_eq sch nl bp0 mids hsch hnl hnlc hbp0 hmids hq hf hs]
  rfl

/-- Witness for `webdav_url_join` at the concrete base
`https://cloud.example.com/nextcloud`. -/
theorem webdav_url_join_witness :
    construct_webdav_url (String.mk ("https".data ++ "://".data
        ++ "cloud.example.com".data ++ "/nextcloud".data))
      = String.mk ("https".data ++ "://".data ++ "cloud.example.com".data
        ++ "/nextcloud".data) ++ "/public.php/webdav/" :=
  webdav_url_join.1 "https".data "cloud.example.com".data "/nextcloud".data
    ["nextcloud".data] (Or.inl rfl) (by decide) (by decide) (by decide) (by decide)
    (by decide) (by decide) (by decide)

/-- Claim C9 counterexample: `upload_file` joins the target name onto the
webdav URL with `urljoin` and no percent-encoding, so a target such as
`../evil.txt` escapes the WebDAV collection entirely: the request URL is
not inside the collection (the collection URL is not even a prefix of
it). -/
theorem upload_url_escape_counterexample :
    target_name (some "../evil.txt") "local.bin" = "../evil.txt" ∧
    urljoinS "https://cloud.example.com/public.php/webdav/"
        (target_name (some "../evil.txt") "local.bin")
      = "https://cloud.example.com/public.php/evil.txt" ∧
    ("https://cloud.example.com/public.php/webdav/").data.isPrefixOf
        (urljoinS "https://cloud.example.com/public.php/webdav/"
          (target_name (some "../evil.txt") "local.bin")).data = false := by
  exact ⟨by decide, by decide, by decide⟩

/-- Claim C9 (amended): the target name is appended to the webdav URL
verbatim (no percent-encoding); when it is a non-empty single segment —
no `/`, `:`, `?`, `#`, `;`, and not `.` or `..` — the request URL is
exactly webdavURL followed by the target, a resource directly inside
the collection; targets containing such characters may instead denote
subdirectories, carry queries, or escape the collection. -/
theorem upload_url_single_segment :
    ∀ (sch nl bp0 : List Char) (mids : List (List Char)) (t fn : String),
      (sch = "https".data ∨ sch = "http".data) →
      nl ≠ [] → (∀ c ∈ nl, isNetlocChar c = true) →
      splitChar '/' bp0 = [] :: mids →
      (∀ m ∈ mids, m ≠ [] ∧ m ≠ ['.'] ∧ m ≠ ['.', '.']) →
      '?' ∉ bp0 → '#' ∉ bp0 → ';' ∉ bp0 →
      t ≠ "" → '/' ∉ t.data → ':' ∉ t.data → '?' ∉ t.data → '#' ∉ t.data → ';' ∉ t.data →
      t ≠ "." → t ≠ ".." →
      urljoinS (construct_webdav_url (String.mk (sch ++ "://".data ++ nl ++ bp0)))
          (target_name (some t) fn)
        = construct_webdav_url (String.mk (sch ++ "://".data ++ nl ++ bp0)) ++ t := by
  intro sch nl bp0 mids t fn hsch hnl hnlc hbp0 hmids hq hf hs
    ht htslash htcol htq htf hts hdot1 hdot2
  have htn : target_name (some t) fn = t := by
    rw [target_name, if_neg ht]
  have htne : t.data ≠ [] := by
    intro h
    apply ht
    have ht1 : t = String.mk t.data := rfl
    rw [ht1, h]
  have hne1 : t.data ≠ ['.'] := by
    intro h
    apply hdot1
    have ht1 : t = String.mk t.data := rfl
    rw [ht1, h]
  have hne2 : t.data ≠ ['.', '.'] := by
    intro h
    apply hdot2
    have ht1 : t = String.mk t.data := rfl
    rw [ht1, h]
  have hth : t.data.head? ≠ some '/' := by
    cases hd : t.data with
    | nil => intro hcontra; cases hcontra
    | cons a as =>
      intro hcontra
      have ha : a = '/' := Option.some.inj hcontra
      exact htslash (by rw [hd, ha]; exact List.mem_cons_self '/' as)
  have hbp' : splitChar '/' (bp0 ++ "/public.php/webdav/".data)
      = [] :: ((mids ++ ["public.php".data, "webdav".data]) ++ [[]]) := by
    rw [show "/public.php/webdav/".data = '/' :: "public.php/webdav/".data from rfl,
      splitChar_append_sep, hbp0,
      show splitChar '/' "public.php/webdav/".data
        = ["public.php".data, "webdav".data, []] from by decide]
    simp
  have hmids' : ∀ m ∈ mids ++ ["public.php".data, "webdav".data],
      m ≠ [] ∧ m ≠ ['.'] ∧ m ≠ ['.', '.'] := by
    intro m hm
    rcases List.mem_append.mp hm with h1 | h2
    · exact hmids m h1
    · rcases List.mem_cons.mp h2 with h3 | h4
      · subst h3
        exact ⟨by decide, by decide, by decide⟩
      · have h5 : m = "webdav".data := by simpa using h4
        subst h5
        exact ⟨by decide, by decide, by decide⟩
  have hq' : '?' ∉ bp0 ++ "/public.php/webdav/".data := by
    intro h
    rcases List.mem_append.mp h with h1 | h2
    · exact hq h1
    · revert h2; decide
  have hf' : '#' ∉ bp0 ++ "/public.php/webdav/".data := by
    intro h
    rcases List.mem_append.mp h with h1 | h2
    · exact hf h1
    · revert h2; decide
  have hs' : ';' ∉ bp0 ++ "/public.php/webdav/".data := by
    intro h
    rcases List.mem_append.mp h with h1 | h2
    · exact hs h1
    · revert h2; decide
  have hmerge := urljoinL_merge sch nl (bp0 ++ "/public.php/webdav/".data) t.data
    (mids ++ ["public.php".data, "webdav".data]) [t.data] t.data []
    hsch hnl hnlc hbp' hmids' hq' hf' hs'
    (splitChar_no_sep '/' t.data htslash) rfl htne hth htcol htq htf hts
    (by intro m hm; simp at hm)
    (by
      intro m hm
      have hm2 : some t.data = some m := hm
      rw [← Option.some.inj hm2]
      exact ⟨hne1, hne2⟩)
  rw [htn, construct_webdav_eq sch nl bp0 mids hsch hnl hnlc hbp0 hmids hq hf hs]
  show String.mk (urljoinL ((sch ++ "://".data ++ nl ++ bp0) ++ "/public.php/webdav/".data)
      t.data)
    = String.mk (((sch ++ "://".data ++ nl ++ bp0) ++ "/public.php/webdav/".data) ++ t.data)
  apply congrArg String.mk
  rw [List.append_assoc (sch ++ "://".data ++ nl) bp0 "/public.php/webdav/".data, hmerge]

/-- Witness for `upload_url_single_segment`: the single-segment target
`report.pdf` on the share base `https://cloud.example.com`. -/
theorem upload_url_single_segment_witness :
    urljoinS (construct_webdav_url (String.mk ("https".data ++ "://".data
        ++ "cloud.example.com".data ++ [])))
        (target_name (some "report.pdf") "local.bin")
      = construct_webdav_url (String.mk ("https".data ++ "://".data
        ++ "cloud.example.com".data ++ [])) ++ "report.pdf" :=
  upload_url_single_segment "https".data "cloud.example.com".data [] []
    "report.pdf" "local.bin" (Or.inl rfl) (by decide) (by decide) (by decide)
    (by decide) (by decide) (by decide) (by decide) (by decide) (by decide)
    (by decide) (by decide) (by decide) (by decide) (by decide) (by decide)
